import Mathlib

/-!
Verification of `src/pyphi/subsystem_2_0.py` (IIT 2.0 subsystem).

The Python module is embedded shallowly:

* `Partition` stores its groups as a tuple sorted in Python's tuple
  (lexicographic) order; `Partition.make` mirrors `Partition.__init__`.
* `generate_partitions` mirrors the generator of the same name; the
  underlying combinatorics primitive `pyphi.partition.bipartition` is not
  part of the analysed file and is modelled from the spec as the standard
  bitmask enumeration of unordered two-way splits.
* Repertoires are real-valued functions on the joint-state space of a
  mechanism (lists of booleans); the entropy primitive, the maximum-entropy
  prior and the opaque causal-model collaborator are modelled from the spec.
* The `assert` in `effective_information_partition` is modelled by an
  `Option ℝ` result: `none` is the assertion failure.
-/

namespace PyPhi

/-! ### Python tuple order on groups (tuples of node indices) -/

/-- Python's `<=` on tuples of integers: lexicographic comparison.
Used by `sorted(parts)` in `Partition.__init__`. -/
def tupleLe : List ℕ → List ℕ → Bool
  | [], _ => true
  | _ :: _, [] => false
  | x :: xs, y :: ys => if x < y then true else if y < x then false else tupleLe xs ys

/-- The propositional form of `tupleLe`, the order used to sort groups. -/
def TupleLeP (a b : List ℕ) : Prop := tupleLe a b = true

instance : DecidableRel TupleLeP := fun a b => instDecidableEqBool (tupleLe a b) true

/-! ### Partition (`class Partition`) -/

/-- Embedding of `Partition`: an immutable value holding the stored tuple of groups. -/
structure Partition where
  parts : List (List ℕ)
deriving DecidableEq

/-- Embedding of `Partition.__init__`: `self.parts = tuple(sorted(parts))` — the groups are
stored sorted in Python tuple order. -/
def Partition.make (ps : List (List ℕ)) : Partition :=
  ⟨List.insertionSort TupleLeP ps⟩

/-- Embedding of `Partition.is_total`: `len(self) == 1`. -/
def Partition.is_total (p : Partition) : Bool :=
  p.parts.length == 1

/-- Embedding of `Partition.indices`: `tuple(sorted(itertools.chain.from_iterable(self.parts)))`. -/
def Partition.indices (p : Partition) : List ℕ :=
  List.insertionSort (· ≤ ·) p.parts.flatten

/-- Python's `min` over a non-empty collection of naturals (group sizes);
the `[]` case is unreachable in the source (`min(())` raises). -/
def pyMinNat : List ℕ → ℕ
  | [] => 0
  | x :: xs => xs.foldl Nat.min x

/-- Embedding of `Partition.normalization`:
`len(self.indices)` if total, else `(len(self) - 1) * min(len(p) for p in self)`. -/
def Partition.normalization (p : Partition) : ℕ :=
  if p.is_total then p.indices.length
  else (p.parts.length - 1) * pyMinNat (p.parts.map List.length)

/-- Model of Python's `hash(self.parts)` (`Partition.__hash__`): some fixed
function of the stored tuple of groups. -/
def Partition.hashVal (p : Partition) : ℕ :=
  p.parts.foldl (fun h g => g.foldl (fun h2 x => h2 * 31 + x + 1) (h * 37 + 7)) 11

/-! ### Bipartition enumeration -/

/-- The sublist of `nodes` selected by the bits of `i` (bit `j` set keeps the
`j`-th element). -/
def selectBits : ℕ → List ℕ → List ℕ
  | _, [] => []
  | i, x :: xs => if i % 2 = 1 then x :: selectBits (i / 2) xs else selectBits (i / 2) xs

/-- The complementary sublist of `nodes` (bit `j` clear keeps the `j`-th element). -/
def coselectBits : ℕ → List ℕ → List ℕ
  | _, [] => []
  | i, x :: xs => if i % 2 = 1 then coselectBits (i / 2) xs else x :: coselectBits (i / 2) xs

/-- Modelled from the spec: the external combinatorics primitive
`pyphi.partition.bipartition` (not part of the analysed source) — "given an
ordered collection, returns every way to split it into two disjoint subsets
whose union is the whole collection", as unordered pairs without duplicates:
the `2 ^ (n-1)` bitmask splits, the degenerate pair `((), nodes)` appearing
exactly once (at mask `0`). -/
def bipartition (nodes : List ℕ) : List (List ℕ × List ℕ) :=
  (List.range (2 ^ (nodes.length - 1))).map fun i => (selectBits i nodes, coselectBits i nodes)

/-- Embedding of `generate_partitions`: yields a `Partition` for every bipartition, turning
the degenerate pair `((), nodes)` into the total partition. -/
def generate_partitions (nodes : List ℕ) : List Partition :=
  (bipartition nodes).map fun pr =>
    if pr.1 = [] then Partition.make [pr.2] else Partition.make [pr.1, pr.2]

/-! ### States, repertoires, entropy -/

/-- All joint states of a `k`-node mechanism (the flattened index space of a
repertoire array). -/
def allStates : ℕ → List (List Bool)
  | 0 => [[]]
  | k + 1 => (allStates k).map (false :: ·) ++ (allStates k).map (true :: ·)

/-- Modelled from the spec: the external entropy primitive (`entropy` in the
source, delegating to `scipy.stats.entropy` with `base=2.0`) — "given two
probability arrays …, returns relative entropy in bits (log base 2)", over the
`2^k` joint states of a `k`-node mechanism, with the `0 · log 0 = 0`
convention. -/
noncomputable def entropy (k : ℕ) (pk qk : List Bool → ℝ) : ℝ :=
  ((allStates k).map fun s => pk s * Real.log (pk s / qk s)).sum / Real.log 2

/-- Embedding of `Subsystem_2_0`: node set, state, and the opaque causal-model collaborator.
The collaborator field is modelled from the spec: `pyphi.Subsystem`'s
`cause_repertoire` (not part of the analysed source) maps a mechanism to a
probability distribution over the mechanism's joint-state space. -/
structure Subsystem_2_0 where
  node_indices : List ℕ
  state : List Bool
  causeRepertoire : List ℕ → List Bool → ℝ

/-- Modelled from the spec: `max_entropy_distribution` (not part of the
analysed source) — "uniform over all possible states of the mechanism".
`Subsystem_2_0.prior_repertoire` returns it for the mechanism. -/
noncomputable def Subsystem_2_0.prior_repertoire (_S : Subsystem_2_0) (mechanism : List ℕ) :
    List Bool → ℝ :=
  fun _ => 1 / 2 ^ mechanism.length

/-- Embedding of `Subsystem_2_0.posterior_repertoire`: delegates to the collaborator,
`cause_repertoire(mechanism, mechanism)`. -/
def Subsystem_2_0.posterior_repertoire (S : Subsystem_2_0) (mechanism : List ℕ) :
    List Bool → ℝ :=
  S.causeRepertoire mechanism

/-- The local state of group `g` extracted from a joint state `s` of the full
node set (numpy broadcasting of a group repertoire over the full space). -/
def extractGroupState (g nodes : List ℕ) (s : List Bool) : List Bool :=
  g.map fun i => s.getD (nodes.indexOf i) false

/-- Embedding of `Subsystem_2_0.partitioned_posterior_repertoire`:
`functools.reduce(np.multiply, [posterior_repertoire(m) for m in partition])` —
the pointwise product over the joint-state space of the groups' posterior
repertoires, each broadcast over the full node set. No precondition is
checked here. -/
noncomputable def Subsystem_2_0.partitioned_posterior_repertoire (S : Subsystem_2_0)
    (p : Partition) : List Bool → ℝ :=
  fun s =>
    (p.parts.map fun g => S.posterior_repertoire g (extractGroupState g S.node_indices s)).prod

/-- Embedding of `Subsystem_2_0.effective_information`:
`entropy(posterior_repertoire(mechanism), prior_repertoire(mechanism))`. -/
noncomputable def Subsystem_2_0.effective_information (S : Subsystem_2_0)
    (mechanism : List ℕ) : ℝ :=
  entropy mechanism.length (S.posterior_repertoire mechanism) (S.prior_repertoire mechanism)

/-- The value `effective_information_partition` computes once its assertion
has passed: the total partition special case, else the relative entropy
between the whole posterior repertoire and the partitioned posterior
repertoire. -/
noncomputable def Subsystem_2_0.eip_val (S : Subsystem_2_0) (p : Partition) : ℝ :=
  if p.is_total then S.effective_information S.node_indices
  else
    entropy S.node_indices.length (S.posterior_repertoire S.node_indices)
      (S.partitioned_posterior_repertoire p)

/-- Embedding of `Subsystem_2_0.effective_information_partition`: first the
`assert partition.indices == self.node_indices` (failure is `none`), then
the computation of `eip_val`. -/
noncomputable def Subsystem_2_0.effective_information_partition (S : Subsystem_2_0)
    (p : Partition) : Option ℝ :=
  if p.indices = S.node_indices then some (S.eip_val p) else none

/-! ### Mip and find_mip -/

/-- Embedding of `Mip_2_0`: effective information, partition, and the subsystem. -/
structure Mip_2_0 where
  ei : ℝ
  partition : Partition
  subsystem : Subsystem_2_0

/-- Embedding of `Mip_2_0.ei_normalized`: `self.ei / self.partition.normalization`. -/
noncomputable def Mip_2_0.ei_normalized (m : Mip_2_0) : ℝ :=
  m.ei / (m.partition.normalization : ℝ)

/-- Python's `<` on pairs of floats: lexicographic. -/
def pairLt (a b : ℝ × ℝ) : Prop :=
  a.1 < b.1 ∨ (a.1 = b.1 ∧ a.2 < b.2)

/-- Embedding of `Mip_2_0.__lt__`: `(self.ei_normalized, self.ei) < (other.ei_normalized, other.ei)`. -/
def Mip_2_0.lt (m1 m2 : Mip_2_0) : Prop :=
  pairLt (m1.ei_normalized, m1.ei) (m2.ei_normalized, m2.ei)

/-- Embedding of `Mip_2_0.__eq__`: equal effective information and equal partition. -/
def Mip_2_0.eqv (m1 m2 : Mip_2_0) : Prop :=
  m1.ei = m2.ei ∧ m1.partition = m2.partition

noncomputable instance : DecidableRel Mip_2_0.lt :=
  fun _ _ => Classical.dec _

/-- Python's `min` over a non-empty iterable using `__lt__`: left fold that
replaces the current best only on strict `<`, hence keeps the first minimal
element. -/
noncomputable def pythonMin (x : Mip_2_0) (xs : List Mip_2_0) : Mip_2_0 :=
  xs.foldl (fun cur y => if Mip_2_0.lt y cur then y else cur) x

/-- Embedding of `Subsystem_2_0.find_mip`: `min(Mip_2_0(effective_information_partition(p), p, self)
for p in generate_partitions(node_indices))`; `none` models an exception
(assertion failure inside the generator, or an empty generator). -/
noncomputable def Subsystem_2_0.find_mip (S : Subsystem_2_0) : Option Mip_2_0 :=
  match (generate_partitions S.node_indices).mapM
      (fun p => (S.effective_information_partition p).map fun e => Mip_2_0.mk e p S) with
  | none => none
  | some [] => none
  | some (x :: xs) => some (pythonMin x xs)

/-! ### Order facts about the tuple order used to canonicalize partitions -/

theorem tupleLe_cons (x y : ℕ) (xs ys : List ℕ) :
    tupleLe (x :: xs) (y :: ys) =
      if x < y then true else if y < x then false else tupleLe xs ys := rfl

theorem tupleLe_total : ∀ a b : List ℕ, TupleLeP a b ∨ TupleLeP b a := by
  intro a
  induction a with
  | nil => intro b; left; rfl
  | cons x xs ih =>
    intro b
    cases b with
    | nil => right; rfl
    | cons y ys =>
      unfold TupleLeP
      rw [tupleLe_cons, tupleLe_cons]
      rcases lt_trichotomy x y with h | h | h
      · left; simp [h]
      · subst h
        rcases ih ys with h2 | h2
        · left; simpa [lt_irrefl] using h2
        · right; simpa [lt_irrefl] using h2
      · right; simp [h]

theorem tupleLe_trans : ∀ a b c : List ℕ, TupleLeP a b → TupleLeP b c → TupleLeP a c := by
  intro a
  induction a with
  | nil => intro b c _ _; rfl
  | cons x xs ih =>
    intro b c hab hbc
    cases b with
    | nil => exact absurd hab (by simp [TupleLeP, tupleLe])
    | cons y ys =>
      cases c with
      | nil => exact absurd hbc (by simp [TupleLeP, tupleLe])
      | cons z zs =>
        unfold TupleLeP at hab hbc ⊢
        rw [tupleLe_cons] at hab hbc
        rw [tupleLe_cons]
        rcases lt_trichotomy x y with h1 | h1 | h1
        · rcases lt_trichotomy y z with h2 | h2 | h2
          · simp [show x < z by omega]
          · subst h2; simp [h1]
          · rw [if_neg (by omega), if_pos h2] at hbc; exact absurd hbc (by simp)
        · subst h1
          rcases lt_trichotomy x z with h2 | h2 | h2
          · simp [h2]
          · subst h2
            rw [if_neg (lt_irrefl x), if_neg (lt_irrefl x)] at hab hbc ⊢
            exact ih ys zs hab hbc
          · rw [if_neg (by omega), if_pos h2] at hbc; exact absurd hbc (by simp)
        · rw [if_neg (by omega), if_pos h1] at hab; exact absurd hab (by simp)

theorem tupleLe_antisymm : ∀ a b : List ℕ, TupleLeP a b → TupleLeP b a → a = b := by
  intro a
  induction a with
  | nil =>
    intro b _ hba
    cases b with
    | nil => rfl
    | cons y ys => exact absurd hba (by simp [TupleLeP, tupleLe])
  | cons x xs ih =>
    intro b hab hba
    cases b with
    | nil => exact absurd hab (by simp [TupleLeP, tupleLe])
    | cons y ys =>
      unfold TupleLeP at hab hba
      rw [tupleLe_cons] at hab hba
      by_cases hxy : x < y <;> by_cases hyx : y < x <;>
        simp [hxy, hyx] at hab hba
      · omega
      · have : x = y := by omega
        subst this
        rw [ih ys hab hba]

instance : IsTotal (List ℕ) TupleLeP := ⟨tupleLe_total⟩

instance : IsTrans (List ℕ) TupleLeP := ⟨tupleLe_trans⟩

instance : IsAntisymm (List ℕ) TupleLeP := ⟨tupleLe_antisymm⟩

/-! ### Facts about `Partition.make` -/

theorem Partition.make_parts_perm (ps : List (List ℕ)) :
    (Partition.make ps).parts.Perm ps :=
  List.perm_insertionSort TupleLeP ps

theorem Partition.make_eq_of_perm {ps1 ps2 : List (List ℕ)} (h : ps1.Perm ps2) :
    Partition.make ps1 = Partition.make ps2 := by
  unfold Partition.make
  congr 1
  exact List.eq_of_perm_of_sorted
    (((List.perm_insertionSort TupleLeP ps1).trans h).trans
      (List.perm_insertionSort TupleLeP ps2).symm)
    (List.sorted_insertionSort TupleLeP ps1)
    (List.sorted_insertionSort TupleLeP ps2)

theorem Partition.make_singleton (g : List ℕ) : (Partition.make [g]).parts = [g] := rfl

theorem Partition.make_pair_parts (a b : List ℕ) :
    (Partition.make [a, b]).parts = [a, b] ∨ (Partition.make [a, b]).parts = [b, a] := by
  unfold Partition.make
  by_cases h : TupleLeP a b
  · left
    simp [List.insertionSort, List.orderedInsert, h]
  · right
    simp [List.insertionSort, List.orderedInsert, h]

/-! ### Facts about `pyMinNat` -/

theorem foldl_min_le (xs : List ℕ) : ∀ a : ℕ,
    xs.foldl Nat.min a ≤ a ∧ ∀ y ∈ xs, xs.foldl Nat.min a ≤ y := by
  induction xs with
  | nil => intro a; exact ⟨le_rfl, by simp⟩
  | cons x xs ih =>
    intro a
    have h := ih (Nat.min a x)
    refine ⟨h.1.trans (Nat.min_le_left a x), ?_⟩
    intro y hy
    rcases List.mem_cons.1 hy with rfl | hy2
    · exact h.1.trans (Nat.min_le_right a y)
    · exact h.2 y hy2

theorem foldl_min_mem (xs : List ℕ) : ∀ a : ℕ,
    xs.foldl Nat.min a = a ∨ xs.foldl Nat.min a ∈ xs := by
  induction xs with
  | nil => intro a; left; rfl
  | cons x xs ih =>
    intro a
    rcases ih (Nat.min a x) with h | h
    · rcases Nat.le_total a x with hax | hxa
      · left
        rw [List.foldl_cons, h]
        unfold Nat.min
        exact min_eq_left hax
      · right
        rw [List.foldl_cons, h]
        have hmx : Nat.min a x = x := by unfold Nat.min; exact min_eq_right hxa
        rw [hmx]
        exact List.mem_cons_self x xs
    · right; exact List.mem_cons_of_mem x h

theorem pyMinNat_cons (x : ℕ) (xs : List ℕ) : pyMinNat (x :: xs) = xs.foldl Nat.min x := rfl

theorem pyMinNat_spec (x : ℕ) (xs : List ℕ) :
    pyMinNat (x :: xs) ∈ x :: xs ∧ ∀ y ∈ x :: xs, pyMinNat (x :: xs) ≤ y := by
  rw [pyMinNat_cons]
  constructor
  · rcases foldl_min_mem xs x with h | h
    · rw [h]; exact List.mem_cons_self x xs
    · exact List.mem_cons_of_mem x h
  · intro y hy
    rcases List.mem_cons.1 hy with rfl | hy2
    · exact (foldl_min_le xs y).1
    · exact (foldl_min_le xs x).2 y hy2

/-! ### Concrete instances used to evaluate the embedding -/

/-- A concrete two-node subsystem with a constant collaborator, used to
evaluate the embedding on explicit inputs. -/
noncomputable def demoSubsystem : Subsystem_2_0 :=
  ⟨[0, 1], [true, false], fun _ _ => (1 : ℝ) / 2⟩

/-! ### Claim C9 -/

/-- C9: two Partitions constructed from the same multiset of groups, in any
order, compare equal and hash identically (groups are stored in a canonical
sorted order), so `Partition(A, B) = Partition(B, A)`. -/
theorem partition_canonical_order (ps1 ps2 : List (List ℕ)) (h : ps1.Perm ps2) :
    Partition.make ps1 = Partition.make ps2 ∧
      (Partition.make ps1).hashVal = (Partition.make ps2).hashVal := by
  have he := Partition.make_eq_of_perm h
  exact ⟨he, by rw [he]⟩

theorem partition_canonical_order_witness :
    Partition.make [[0], [1, 2]] = Partition.make [[1, 2], [0]] ∧
      (Partition.make [[0], [1, 2]]).hashVal = (Partition.make [[1, 2], [0]]).hashVal :=
  partition_canonical_order [[0], [1, 2]] [[1, 2], [0]] (by decide)

/-! ### Claim C3 -/

/-- C3: for a partition with `is_total` true (satisfying the asserted
precondition `partition.indices == node_indices`),
`effective_information_partition` returns exactly `effective_information()` of
the whole system rather than the degenerate 0 of the literal partitioned
computation. -/
theorem eip_total_eq_whole_ei (S : Subsystem_2_0) (p : Partition)
    (hidx : p.indices = S.node_indices) (htot : p.is_total = true) :
    S.effective_information_partition p = some (S.effective_information S.node_indices) := by
  simp [Subsystem_2_0.effective_information_partition, Subsystem_2_0.eip_val, hidx, htot]

theorem eip_total_eq_whole_ei_witness :
    demoSubsystem.effective_information_partition (Partition.make [[0, 1]]) =
      some (demoSubsystem.effective_information demoSubsystem.node_indices) :=
  eip_total_eq_whole_ei demoSubsystem (Partition.make [[0, 1]]) (by decide) (by decide)

/-! ### Claim C5 -/

/-- C5: `effective_information_partition` fails its assertion (modelled as
`none`, no partial result) exactly when the partition's reconstructed index
set differs from the subsystem's node set; when they agree the assertion does
not fire and a value is returned. -/
theorem eip_assert_behaviour (S : Subsystem_2_0) (p : Partition) :
    (p.indices ≠ S.node_indices → S.effective_information_partition p = none) ∧
      (p.indices = S.node_indices → ∃ r, S.effective_information_partition p = some r) := by
  constructor
  · intro h
    simp [Subsystem_2_0.effective_information_partition, h]
  · intro h
    refine ⟨S.eip_val p, ?_⟩
    simp [Subsystem_2_0.effective_information_partition, h]

theorem eip_assert_behaviour_witness :
    demoSubsystem.effective_information_partition (Partition.make [[5]]) = none ∧
      ∃ r, demoSubsystem.effective_information_partition (Partition.make [[0], [1]]) = some r :=
  ⟨(eip_assert_behaviour demoSubsystem (Partition.make [[5]])).1 (by decide),
    (eip_assert_behaviour demoSubsystem (Partition.make [[0], [1]])).2 (by decide)⟩

/-! ### Claim C4 (corrected) -/

/-- C4 counterexample: the claim says `partitioned_posterior_repertoire` fails
with an assertion error on a partition whose indices differ from the node set;
in fact it performs no check: on the partition `((0,),)` (indices `(0,)`,
differing from the node set `(0, 1)`) it returns a repertoire value (here
`1/2` at the joint state `(1, 1)`) rather than failing. -/
theorem ppr_no_check_counterexample :
    (Partition.make [[0]]).indices ≠ demoSubsystem.node_indices ∧
      demoSubsystem.partitioned_posterior_repertoire (Partition.make [[0]]) [true, true] =
        1 / 2 := by
  constructor
  · decide
  · show ([[0]].map fun g =>
        demoSubsystem.posterior_repertoire g
          (extractGroupState g demoSubsystem.node_indices [true, true])).prod = 1 / 2
    simp [Subsystem_2_0.posterior_repertoire, demoSubsystem]

/-- C4 amended: the index-set contract is enforced not by
`partitioned_posterior_repertoire` itself — which performs no check and
returns the broadcast product of the groups' posterior repertoires for any
partition — but by its caller `effective_information_partition`, whose
assertion fails for any partition whose indices differ from the node set. -/
theorem ppr_contract_enforced_by_caller (S : Subsystem_2_0) (p : Partition)
    (h : p.indices ≠ S.node_indices) :
    S.effective_information_partition p = none ∧
      S.partitioned_posterior_repertoire p = fun s =>
        (p.parts.map fun g =>
          S.posterior_repertoire g (extractGroupState g S.node_indices s)).prod :=
  ⟨by simp [Subsystem_2_0.effective_information_partition, h], rfl⟩

theorem ppr_contract_enforced_by_caller_witness :
    demoSubsystem.effective_information_partition (Partition.make [[0]]) = none ∧
      demoSubsystem.partitioned_posterior_repertoire (Partition.make [[0]]) = fun s =>
        ((Partition.make [[0]]).parts.map fun g =>
          demoSubsystem.posterior_repertoire g
            (extractGroupState g demoSubsystem.node_indices s)).prod :=
  ppr_contract_enforced_by_caller demoSubsystem (Partition.make [[0]]) (by decide)

/-! ### Combinatorics of the bitmask split -/

theorem selectBits_cons (i x : ℕ) (xs : List ℕ) :
    selectBits i (x :: xs) =
      if i % 2 = 1 then x :: selectBits (i / 2) xs else selectBits (i / 2) xs := rfl

theorem coselectBits_cons (i x : ℕ) (xs : List ℕ) :
    coselectBits i (x :: xs) =
      if i % 2 = 1 then coselectBits (i / 2) xs else x :: coselectBits (i / 2) xs := rfl

theorem selectBits_zero : ∀ nodes : List ℕ, selectBits 0 nodes = [] := by
  intro nodes
  induction nodes with
  | nil => rfl
  | cons x xs ih => simpa [selectBits] using ih

theorem coselectBits_zero : ∀ nodes : List ℕ, coselectBits 0 nodes = nodes := by
  intro nodes
  induction nodes with
  | nil => rfl
  | cons x xs ih => simpa [coselectBits] using ih

theorem select_append_coselect_perm : ∀ (i : ℕ) (nodes : List ℕ),
    (selectBits i nodes ++ coselectBits i nodes).Perm nodes := by
  intro i nodes
  induction nodes generalizing i with
  | nil => simp [selectBits, coselectBits]
  | cons x xs ih =>
    by_cases h : i % 2 = 1
    · simp only [selectBits, coselectBits, if_pos h, List.cons_append]
      exact (ih (i / 2)).cons x
    · simp only [selectBits, coselectBits, if_neg h]
      exact List.perm_middle.trans ((ih (i / 2)).cons x)

theorem selectBits_sublist : ∀ (i : ℕ) (nodes : List ℕ), (selectBits i nodes).Sublist nodes := by
  intro i nodes
  induction nodes generalizing i with
  | nil => simp [selectBits]
  | cons x xs ih =>
    by_cases h : i % 2 = 1
    · simp only [selectBits, if_pos h]
      exact (ih (i / 2)).cons₂ x
    · simp only [selectBits, if_neg h]
      exact (ih (i / 2)).cons x

theorem selectBits_eq_nil_iff : ∀ (nodes : List ℕ) (i : ℕ), i < 2 ^ nodes.length →
    (selectBits i nodes = [] ↔ i = 0) := by
  intro nodes
  induction nodes with
  | nil =>
    intro i hi
    simp only [List.length_nil, pow_zero] at hi
    interval_cases i
    simp [selectBits]
  | cons x xs ih =>
    intro i hi
    simp only [List.length_cons] at hi
    have h2 : (2 : ℕ) ^ (xs.length + 1) = 2 * 2 ^ xs.length := by ring
    by_cases h : i % 2 = 1
    · simp only [selectBits, if_pos h]
      constructor
      · intro hc; exact absurd hc (List.cons_ne_nil _ _)
      · intro hc; omega
    · simp only [selectBits, if_neg h]
      rw [ih (i / 2) (by omega)]
      omega

theorem coselectBits_ne_nil : ∀ (nodes : List ℕ) (i : ℕ), nodes ≠ [] →
    i < 2 ^ (nodes.length - 1) → coselectBits i nodes ≠ [] := by
  intro nodes
  induction nodes with
  | nil => intro i h; exact absurd rfl h
  | cons x xs ih =>
    intro i _ hi
    cases xs with
    | nil =>
      simp only [List.length_cons, List.length_nil, pow_zero] at hi
      interval_cases i
      simp [coselectBits]
    | cons y ys =>
      by_cases h : i % 2 = 1
      · simp only [coselectBits, if_pos h]
        apply ih (i / 2) (List.cons_ne_nil y ys)
        simp only [List.length_cons, Nat.add_sub_cancel] at hi ⊢
        have h2 : (2 : ℕ) ^ (ys.length + 1) = 2 * 2 ^ ys.length := by ring
        omega
      · simp only [coselectBits, if_neg h]
        exact List.cons_ne_nil _ _

theorem head_mem_selectBits_iff (x : ℕ) (xs : List ℕ) (hx : x ∉ xs) (i : ℕ) :
    x ∈ selectBits i (x :: xs) ↔ i % 2 = 1 := by
  by_cases h : i % 2 = 1
  · simp [selectBits, h]
  · simp only [selectBits, if_neg h]
    constructor
    · intro hmem
      exact absurd ((selectBits_sublist (i / 2) xs).subset hmem) hx
    · intro hc; exact absurd hc h

theorem coselectBits_sublist : ∀ (i : ℕ) (nodes : List ℕ),
    (coselectBits i nodes).Sublist nodes := by
  intro i nodes
  induction nodes generalizing i with
  | nil => simp [coselectBits]
  | cons x xs ih =>
    by_cases h : i % 2 = 1
    · simp only [coselectBits, if_pos h]
      exact (ih (i / 2)).cons x
    · simp only [coselectBits, if_neg h]
      exact (ih (i / 2)).cons₂ x

theorem selectBits_ne_coselectBits : ∀ (nodes : List ℕ), nodes.Nodup → nodes ≠ [] →
    ∀ i j : ℕ, i < 2 ^ (nodes.length - 1) → j < 2 ^ (nodes.length - 1) →
      selectBits i nodes ≠ coselectBits j nodes := by
  intro nodes
  induction nodes with
  | nil => intro _ h; exact absurd rfl h
  | cons x xs ih =>
    intro hnd _ i j hi hj
    have hx : x ∉ xs := (List.nodup_cons.1 hnd).1
    cases xs with
    | nil =>
      simp only [List.length_cons, List.length_nil, pow_zero] at hi hj
      interval_cases i
      interval_cases j
      simp [selectBits, coselectBits]
    | cons y ys =>
      simp only [List.length_cons, Nat.add_sub_cancel] at hi hj
      have h2 : (2 : ℕ) ^ (ys.length + 1) = 2 * 2 ^ ys.length := by ring
      have hiq : i / 2 < 2 ^ ((y :: ys).length - 1) := by
        simp only [List.length_cons, Nat.add_sub_cancel]; omega
      have hjq : j / 2 < 2 ^ ((y :: ys).length - 1) := by
        simp only [List.length_cons, Nat.add_sub_cancel]; omega
      have htail := ih (List.nodup_cons.1 hnd).2 (List.cons_ne_nil y ys) (i / 2) (j / 2) hiq hjq
      by_cases hI : i % 2 = 1 <;> by_cases hJ : j % 2 = 1
      · rw [selectBits_cons, coselectBits_cons, if_pos hI, if_pos hJ]
        intro hc
        have hmem : x ∈ coselectBits (j / 2) (y :: ys) := by
          rw [← hc]; exact List.mem_cons_self _ _
        exact hx ((coselectBits_sublist (j / 2) (y :: ys)).subset hmem)
      · rw [selectBits_cons, coselectBits_cons, if_pos hI, if_neg hJ]
        intro hc
        exact htail (List.cons.inj hc).2
      · rw [selectBits_cons, coselectBits_cons, if_neg hI, if_pos hJ]
        exact htail
      · rw [selectBits_cons, coselectBits_cons, if_neg hI, if_neg hJ]
        intro hc
        have hmem : x ∈ selectBits (i / 2) (y :: ys) := by
          rw [hc]; exact List.mem_cons_self _ _
        exact hx ((selectBits_sublist (i / 2) (y :: ys)).subset hmem)

theorem selectBits_injOn : ∀ (nodes : List ℕ), nodes.Nodup →
    ∀ i j : ℕ, i < 2 ^ nodes.length → j < 2 ^ nodes.length →
      selectBits i nodes = selectBits j nodes → i = j := by
  intro nodes
  induction nodes with
  | nil =>
    intro _ i j hi hj _
    simp only [List.length_nil, pow_zero] at hi hj
    omega
  | cons x xs ih =>
    intro hnd i j hi hj heq
    have hx : x ∉ xs := (List.nodup_cons.1 hnd).1
    have hpar : i % 2 = 1 ↔ j % 2 = 1 := by
      rw [← head_mem_selectBits_iff x xs hx i, ← head_mem_selectBits_iff x xs hx j, heq]
    simp only [List.length_cons] at hi hj
    have h2 : (2 : ℕ) ^ (xs.length + 1) = 2 * 2 ^ xs.length := by ring
    by_cases hI : i % 2 = 1
    · have hJ : j % 2 = 1 := hpar.1 hI
      rw [selectBits_cons, selectBits_cons, if_pos hI, if_pos hJ] at heq
      have := ih (List.nodup_cons.1 hnd).2 (i / 2) (j / 2) (by omega) (by omega)
        (List.cons.inj heq).2
      omega
    · have hJ : ¬j % 2 = 1 := fun hc => hI (hpar.2 hc)
      rw [selectBits_cons, selectBits_cons, if_neg hI, if_neg hJ] at heq
      have := ih (List.nodup_cons.1 hnd).2 (i / 2) (j / 2) (by omega) (by omega) heq
      omega

/-! ### Structure of the generated partitions -/

/-- The partition produced from the `i`-th bitmask split. -/
def genPartFn (nodes : List ℕ) (i : ℕ) : Partition :=
  if selectBits i nodes = [] then Partition.make [coselectBits i nodes]
  else Partition.make [selectBits i nodes, coselectBits i nodes]

theorem generate_partitions_eq (nodes : List ℕ) :
    generate_partitions nodes =
      (List.range (2 ^ (nodes.length - 1))).map (genPartFn nodes) := by
  unfold generate_partitions bipartition genPartFn
  rw [List.map_map]
  rfl

theorem generated_parts (nodes : List ℕ) (p : Partition) (hp : p ∈ generate_partitions nodes) :
    ∃ i, i < 2 ^ (nodes.length - 1) ∧
      ((selectBits i nodes = [] ∧ p.parts = [coselectBits i nodes]) ∨
        (selectBits i nodes ≠ [] ∧
          (p.parts = [selectBits i nodes, coselectBits i nodes] ∨
            p.parts = [coselectBits i nodes, selectBits i nodes]))) := by
  rw [generate_partitions_eq] at hp
  rcases List.mem_map.1 hp with ⟨i, hi, hpe⟩
  rw [List.mem_range] at hi
  unfold genPartFn at hpe
  refine ⟨i, hi, ?_⟩
  by_cases h : selectBits i nodes = []
  · rw [if_pos h] at hpe
    exact Or.inl ⟨h, by rw [← hpe, Partition.make_singleton]⟩
  · rw [if_neg h] at hpe
    refine Or.inr ⟨h, ?_⟩
    rcases Partition.make_pair_parts (selectBits i nodes) (coselectBits i nodes) with h2 | h2
    · exact Or.inl (by rw [← hpe, h2])
    · exact Or.inr (by rw [← hpe, h2])

theorem generated_parts_flatten_perm (nodes : List ℕ) (p : Partition)
    (hp : p ∈ generate_partitions nodes) : p.parts.flatten.Perm nodes := by
  rcases generated_parts nodes p hp with ⟨i, _, hcase⟩
  rcases hcase with ⟨hsel, hparts⟩ | ⟨_, hparts | hparts⟩
  · rw [hparts]
    simp only [List.flatten_cons, List.flatten_nil, List.append_nil]
    have hperm := select_append_coselect_perm i nodes
    rw [hsel] at hperm
    simpa using hperm
  · rw [hparts]
    simp only [List.flatten_cons, List.flatten_nil, List.append_nil]
    exact select_append_coselect_perm i nodes
  · rw [hparts]
    simp only [List.flatten_cons, List.flatten_nil, List.append_nil]
    exact List.perm_append_comm.trans (select_append_coselect_perm i nodes)

/-! ### Claim C7 -/

theorem indices_roundtrip_aux (nodes : List ℕ) (hs : List.Sorted (· ≤ ·) nodes) :
    ∀ p ∈ generate_partitions nodes, p.indices = nodes := by
  intro p hp
  unfold Partition.indices
  refine List.eq_of_perm_of_sorted ?_ (List.sorted_insertionSort _ _) hs
  exact (List.perm_insertionSort _ _).trans (generated_parts_flatten_perm nodes p hp)

/-- C7: for every partition generated by `generate_partitions(node_set)`, the
`indices` accessor — the sorted union of all its groups — equals the original
node set exactly (round-trip law; the node set, a sorted tuple of node
indices, is sorted ascending). -/
theorem generated_indices_roundtrip (nodes : List ℕ) (hs : List.Sorted (· ≤ ·) nodes) :
    ∀ p ∈ generate_partitions nodes, p.indices = nodes :=
  indices_roundtrip_aux nodes hs

theorem generated_indices_roundtrip_witness :
    (Partition.make [[0], [1]]).indices = [0, 1] :=
  generated_indices_roundtrip [0, 1] (by decide) (Partition.make [[0], [1]]) (by decide)

theorem make_singleton_is_total (g : List ℕ) : (Partition.make [g]).is_total = true := rfl

theorem make_pair_not_total (a b : List ℕ) : (Partition.make [a, b]).is_total = false := by
  rcases Partition.make_pair_parts a b with h | h <;>
    simp [Partition.is_total, h]

theorem genPartFn_is_total (nodes : List ℕ) (i : ℕ) (hi : i < 2 ^ nodes.length) :
    (genPartFn nodes i).is_total = decide (i = 0) := by
  unfold genPartFn
  by_cases h : selectBits i nodes = []
  · have hi0 : i = 0 := (selectBits_eq_nil_iff nodes i hi).1 h
    subst hi0
    rw [if_pos h, make_singleton_is_total]
    simp
  · have hi0 : i ≠ 0 := fun hc => h (by rw [hc]; exact selectBits_zero nodes)
    rw [if_neg h, make_pair_not_total]
    simp [hi0]

/-! ### Claim C2 -/

/-- C2: for a non-empty node set of size `n`, `generate_partitions` yields
exactly `2^(n-1)` partitions: exactly one total partition, whose single group
is the whole node set, and exactly `2^(n-1) - 1` bipartitions, each made of
two disjoint non-empty groups, with no duplicate partitions. -/
theorem generate_partitions_spec (nodes : List ℕ) (hne : nodes ≠ []) (hnd : nodes.Nodup) :
    (generate_partitions nodes).length = 2 ^ (nodes.length - 1) ∧
      (generate_partitions nodes).countP (fun p => p.is_total) = 1 ∧
      (generate_partitions nodes).countP (fun p => !p.is_total) = 2 ^ (nodes.length - 1) - 1 ∧
      (∀ p ∈ generate_partitions nodes, p.is_total = true → p.parts = [nodes]) ∧
      (∀ p ∈ generate_partitions nodes, p.is_total = false →
        ∃ A B, p.parts = [A, B] ∧ A ≠ [] ∧ B ≠ [] ∧ A.Disjoint B) ∧
      (generate_partitions nodes).Nodup := by
  have hlen1 : 1 ≤ nodes.length := List.length_pos.2 hne
  have hNle : (2 : ℕ) ^ (nodes.length - 1) ≤ 2 ^ nodes.length :=
    Nat.pow_le_pow_right (by norm_num) (by omega)
  have hNpos : 0 < (2 : ℕ) ^ (nodes.length - 1) := pow_pos (by norm_num) _
  obtain ⟨M, hM⟩ : ∃ M, (2 : ℕ) ^ (nodes.length - 1) = M + 1 :=
    ⟨2 ^ (nodes.length - 1) - 1, by omega⟩
  refine ⟨?_, ?_, ?_, ?_, ?_, ?_⟩
  · rw [generate_partitions_eq]
    simp
  · rw [generate_partitions_eq, List.countP_map]
    have hpt : ∀ a ∈ List.range (2 ^ (nodes.length - 1)),
        ((fun p : Partition => p.is_total) ∘ genPartFn nodes) a = decide (a = 0) := by
      intro a ha
      simp only [Function.comp_apply]
      exact genPartFn_is_total nodes a (lt_of_lt_of_le (List.mem_range.1 ha) hNle)
    rw [List.countP_eq_length_filter, List.filter_congr hpt, ← List.countP_eq_length_filter]
    rw [hM, List.range_succ_eq_map]
    rw [List.countP_cons_of_pos _ _ (by simp)]
    rw [List.countP_map]
    have hz : List.countP ((fun i => decide (i = 0)) ∘ Nat.succ) (List.range M) = 0 := by
      rw [List.countP_eq_zero]
      intro a _
      simp
    rw [hz]
  · rw [generate_partitions_eq, List.countP_map]
    have hpt : ∀ a ∈ List.range (2 ^ (nodes.length - 1)),
        ((fun p : Partition => !p.is_total) ∘ genPartFn nodes) a = !(decide (a = 0)) := by
      intro a ha
      simp only [Function.comp_apply]
      rw [genPartFn_is_total nodes a (lt_of_lt_of_le (List.mem_range.1 ha) hNle)]
    rw [List.countP_eq_length_filter, List.filter_congr hpt, ← List.countP_eq_length_filter]
    rw [hM, List.range_succ_eq_map]
    rw [List.countP_cons_of_neg _ _ (by simp)]
    rw [List.countP_map]
    have hall : List.countP ((fun i => !(decide (i = 0))) ∘ Nat.succ) (List.range M) = M := by
      rw [List.countP_eq_length_filter]
      have hfe : List.filter ((fun i => !(decide (i = 0))) ∘ Nat.succ) (List.range M) =
          List.range M := by
        rw [List.filter_eq_self]
        intro a _
        simp
      rw [hfe, List.length_range]
    rw [hall]
    omega
  · intro p hp htot
    rcases generated_parts nodes p hp with ⟨i, hi, hcase⟩
    rcases hcase with ⟨hsel, hparts⟩ | ⟨_, hparts | hparts⟩
    · have hi0 : i = 0 := (selectBits_eq_nil_iff nodes i (lt_of_lt_of_le hi hNle)).1 hsel
      subst hi0
      rw [hparts, coselectBits_zero]
    · exfalso; simp [Partition.is_total, hparts] at htot
    · exfalso; simp [Partition.is_total, hparts] at htot
  · intro p hp htot
    rcases generated_parts nodes p hp with ⟨i, hi, hcase⟩
    have hcne := coselectBits_ne_nil nodes i hne hi
    have hnd2 : (selectBits i nodes ++ coselectBits i nodes).Nodup :=
      (select_append_coselect_perm i nodes).nodup_iff.2 hnd
    have hdisj : (selectBits i nodes).Disjoint (coselectBits i nodes) :=
      List.disjoint_of_nodup_append hnd2
    rcases hcase with ⟨hsel, hparts⟩ | ⟨hsel, hparts | hparts⟩
    · exfalso; simp [Partition.is_total, hparts] at htot
    · exact ⟨_, _, hparts, hsel, hcne, hdisj⟩
    · exact ⟨_, _, hparts, hcne, hsel, hdisj.symm⟩
  · rw [generate_partitions_eq]
    refine List.Nodup.map_on ?_ (List.nodup_range _)
    intro i hi j hj heq
    rw [List.mem_range] at hi hj
    by_cases hI : selectBits i nodes = [] <;> by_cases hJ : selectBits j nodes = []
    · rw [(selectBits_eq_nil_iff nodes i (lt_of_lt_of_le hi hNle)).1 hI,
        (selectBits_eq_nil_iff nodes j (lt_of_lt_of_le hj hNle)).1 hJ]
    · exfalso
      have hlen : (genPartFn nodes i).parts.length = (genPartFn nodes j).parts.length := by
        rw [heq]
      unfold genPartFn at hlen
      rw [if_pos hI, if_neg hJ, Partition.make_singleton] at hlen
      rcases Partition.make_pair_parts (selectBits j nodes) (coselectBits j nodes) with h2 | h2 <;>
        · rw [h2] at hlen; simp at hlen
    · exfalso
      have hlen : (genPartFn nodes i).parts.length = (genPartFn nodes j).parts.length := by
        rw [heq]
      unfold genPartFn at hlen
      rw [if_neg hI, if_pos hJ, Partition.make_singleton] at hlen
      rcases Partition.make_pair_parts (selectBits i nodes) (coselectBits i nodes) with h2 | h2 <;>
        · rw [h2] at hlen; simp at hlen
    · have hparts := congrArg Partition.parts heq
      unfold genPartFn at hparts
      rw [if_neg hI, if_neg hJ] at hparts
      rcases Partition.make_pair_parts (selectBits i nodes) (coselectBits i nodes) with h2 | h2 <;>
        rcases Partition.make_pair_parts (selectBits j nodes) (coselectBits j nodes) with
          h3 | h3 <;>
        rw [h2, h3] at hparts <;>
        simp only [List.cons.injEq, and_true] at hparts
      · exact selectBits_injOn nodes hnd i j (lt_of_lt_of_le hi hNle)
          (lt_of_lt_of_le hj hNle) hparts.1
      · exact absurd hparts.1 (selectBits_ne_coselectBits nodes hnd hne i j hi hj)
      · exact absurd hparts.2 (selectBits_ne_coselectBits nodes hnd hne i j hi hj)
      · exact selectBits_injOn nodes hnd i j (lt_of_lt_of_le hi hNle)
          (lt_of_lt_of_le hj hNle) hparts.2

theorem generate_partitions_spec_witness :
    (generate_partitions [0, 1]).length = 2 ^ (([0, 1] : List ℕ).length - 1) ∧
      (generate_partitions [0, 1]).countP (fun p => p.is_total) = 1 :=
  ⟨(generate_partitions_spec [0, 1] (by decide) (by decide)).1,
    (generate_partitions_spec [0, 1] (by decide) (by decide)).2.1⟩

/-! ### Claim C6 -/

theorem pyMinNat_pair (a b : ℕ) : pyMinNat [a, b] = Nat.min a b := rfl

/-- C6: `normalization` equals the length of `indices` (the number of nodes in
the set) for a total partition, and `(k - 1) * min(group sizes)` for a
partition with `k ≥ 2` groups; for every partition produced by
`generate_partitions` on a non-empty node set it is at least 1. -/
theorem normalization_spec (p : Partition) :
    (p.is_total = true → p.normalization = p.indices.length) ∧
      (2 ≤ p.parts.length →
        ∃ g ∈ p.parts, p.normalization = (p.parts.length - 1) * g.length ∧
          ∀ g2 ∈ p.parts, g.length ≤ g2.length) ∧
      ∀ nodes : List ℕ, nodes ≠ [] → p ∈ generate_partitions nodes →
        1 ≤ p.normalization := by
  refine ⟨?_, ?_, ?_⟩
  · intro htot
    simp [Partition.normalization, htot]
  · intro h2
    have htot : p.is_total = false := by
      simp only [Partition.is_total, beq_eq_false_iff_ne, ne_eq]
      omega
    have hnorm : p.normalization = (p.parts.length - 1) * pyMinNat (p.parts.map List.length) := by
      simp [Partition.normalization, htot]
    cases hq : p.parts with
    | nil => rw [hq] at h2; simp at h2
    | cons q qs =>
      have hmap : (q :: qs).map List.length = q.length :: qs.map List.length := rfl
      obtain ⟨hmem, hmin⟩ := pyMinNat_spec q.length (qs.map List.length)
      rw [← hmap] at hmem hmin
      rcases List.mem_map.1 hmem with ⟨g, hg, hgl⟩
      refine ⟨g, hq ▸ hg, ?_, ?_⟩
      · rw [hnorm, hq, hgl]
      · intro g2 hg2
        have := hmin g2.length (List.mem_map_of_mem List.length hg2)
        omega
  · intro nodes hne hp
    have hlen1 : 1 ≤ nodes.length := List.length_pos.2 hne
    have hNle : (2 : ℕ) ^ (nodes.length - 1) ≤ 2 ^ nodes.length :=
      Nat.pow_le_pow_right (by norm_num) (by omega)
    rcases generated_parts nodes p hp with ⟨i, hi, hcase⟩
    rcases hcase with ⟨hsel, hparts⟩ | ⟨hsel, hparts | hparts⟩
    · have hi0 : i = 0 := (selectBits_eq_nil_iff nodes i (lt_of_lt_of_le hi hNle)).1 hsel
      subst hi0
      rw [coselectBits_zero] at hparts
      have hn : p.normalization = nodes.length := by
        simp [Partition.normalization, Partition.is_total, hparts, Partition.indices,
          List.length_insertionSort]
      omega
    · have hcne := coselectBits_ne_nil nodes i hne hi
      have hn : p.normalization =
          Nat.min (selectBits i nodes).length (coselectBits i nodes).length := by
        simp [Partition.normalization, Partition.is_total, hparts, pyMinNat_pair]
      rw [hn]
      have h1 : 0 < (selectBits i nodes).length := List.length_pos.2 hsel
      have h2 : 0 < (coselectBits i nodes).length := List.length_pos.2 hcne
      unfold Nat.min
      exact le_min h1 h2
    · have hcne := coselectBits_ne_nil nodes i hne hi
      have hn : p.normalization =
          Nat.min (coselectBits i nodes).length (selectBits i nodes).length := by
        simp [Partition.normalization, Partition.is_total, hparts, pyMinNat_pair]
      rw [hn]
      have h1 : 0 < (selectBits i nodes).length := List.length_pos.2 hsel
      have h2 : 0 < (coselectBits i nodes).length := List.length_pos.2 hcne
      unfold Nat.min
      exact le_min h2 h1

theorem normalization_spec_witness :
    (Partition.make [[0, 1]]).normalization = (Partition.make [[0, 1]]).indices.length ∧
      (∃ g ∈ (Partition.make [[0], [1]]).parts,
        (Partition.make [[0], [1]]).normalization =
          ((Partition.make [[0], [1]]).parts.length - 1) * g.length ∧
          ∀ g2 ∈ (Partition.make [[0], [1]]).parts, g.length ≤ g2.length) ∧
      1 ≤ (Partition.make [[0], [1]]).normalization :=
  ⟨(normalization_spec (Partition.make [[0, 1]])).1 (by decide),
    (normalization_spec (Partition.make [[0], [1]])).2.1 (by decide),
    (normalization_spec (Partition.make [[0], [1]])).2.2 [0, 1] (by decide) (by decide)⟩

/-! ### Real-valued list sums -/

theorem list_sum_map_sub {α : Type} (l : List α) (f g : α → ℝ) :
    (l.map fun x => f x - g x).sum = (l.map f).sum - (l.map g).sum := by
  induction l with
  | nil => simp
  | cons x xs ih =>
    simp only [List.map_cons, List.sum_cons, ih]
    ring

theorem list_sum_map_nonneg {α : Type} (l : List α) (f : α → ℝ)
    (h : ∀ x ∈ l, 0 ≤ f x) : 0 ≤ (l.map f).sum := by
  induction l with
  | nil => simp
  | cons x xs ih =>
    simp only [List.map_cons, List.sum_cons]
    have h1 := h x (List.mem_cons_self x xs)
    have h2 := ih fun y hy => h y (List.mem_cons_of_mem x hy)
    linarith

theorem list_sum_map_eq_zero {α : Type} (l : List α) (f : α → ℝ)
    (h : ∀ x ∈ l, 0 ≤ f x) (hz : (l.map f).sum = 0) : ∀ x ∈ l, f x = 0 := by
  induction l with
  | nil => simp
  | cons x xs ih =>
    simp only [List.map_cons, List.sum_cons] at hz
    have h1 := h x (List.mem_cons_self x xs)
    have h2 := list_sum_map_nonneg xs f fun y hy => h y (List.mem_cons_of_mem x hy)
    intro y hy
    rcases List.mem_cons.1 hy with rfl | hy2
    · linarith
    · exact ih (fun z hz2 => h z (List.mem_cons_of_mem x hz2)) (by linarith) y hy2

theorem list_sum_map_const {α : Type} (l : List α) (c : ℝ) :
    (l.map fun _ => c).sum = (l.length : ℝ) * c := by
  induction l with
  | nil => simp
  | cons x xs ih =>
    simp only [List.map_cons, List.sum_cons, List.length_cons, ih]
    push_cast
    ring

theorem allStates_length (k : ℕ) : (allStates k).length = 2 ^ k := by
  induction k with
  | zero => rfl
  | succ n ih =>
    show ((allStates n).map (false :: ·) ++ (allStates n).map (true :: ·)).length = 2 ^ (n + 1)
    rw [List.length_append, List.length_map, List.length_map, ih]
    ring

/-! ### Claim C8: Gibbs' inequality against the uniform prior -/

theorem kl_uniform (k : ℕ) (p : List Bool → ℝ)
    (hp : ∀ s ∈ allStates k, 0 ≤ p s)
    (hsum : ((allStates k).map p).sum = 1) :
    0 ≤ ((allStates k).map fun s => p s * Real.log (p s / (1 / 2 ^ k))).sum ∧
      (((allStates k).map fun s => p s * Real.log (p s / (1 / 2 ^ k))).sum = 0 ↔
        ∀ s ∈ allStates k, p s = 1 / 2 ^ k) := by
  have hu : (0 : ℝ) < 1 / 2 ^ k := by positivity
  set u : ℝ := 1 / 2 ^ k with hudef
  have husum : ((allStates k).map fun _ => u).sum = 1 := by
    rw [list_sum_map_const, allStates_length, hudef]
    push_cast
    field_simp
  have hterm : ∀ s ∈ allStates k, 0 ≤ p s * Real.log (p s / u) - (p s - u) := by
    intro s hs
    by_cases h0 : p s = 0
    · simp [h0]
      linarith
    · have hppos : 0 < p s := lt_of_le_of_ne (hp s hs) (Ne.symm h0)
      have hlog : Real.log (u / p s) ≤ u / p s - 1 :=
        Real.log_le_sub_one_of_pos (by positivity)
      have hlogeq : Real.log (u / p s) = -Real.log (p s / u) := by
        rw [← Real.log_inv]
        congr 1
        rw [inv_div]
      rw [hlogeq] at hlog
      have hmul := mul_le_mul_of_nonneg_left hlog (le_of_lt hppos)
      have hps : p s * (u / p s - 1) = u - p s := by
        field_simp
      rw [hps] at hmul
      nlinarith
  have hsplit : ((allStates k).map fun s => p s * Real.log (p s / u) - (p s - u)).sum =
      ((allStates k).map fun s => p s * Real.log (p s / u)).sum := by
    rw [list_sum_map_sub]
    have : ((allStates k).map fun s => p s - u).sum = 0 := by
      rw [list_sum_map_sub, hsum, husum]
      ring
    rw [this]
    ring
  constructor
  · have := list_sum_map_nonneg (allStates k) _ hterm
    linarith [hsplit]
  · constructor
    · intro hz
      have hzg : ((allStates k).map fun s => p s * Real.log (p s / u) - (p s - u)).sum = 0 := by
        rw [hsplit, hz]
      have hall := list_sum_map_eq_zero (allStates k) _ hterm hzg
      intro s hs
      have hgs := hall s hs
      by_cases h0 : p s = 0
      · exfalso
        rw [h0] at hgs
        simp at hgs
        linarith
      · have hppos : 0 < p s := lt_of_le_of_ne (hp s hs) (Ne.symm h0)
        by_contra hne
        have hlog : Real.log (u / p s) < u / p s - 1 := by
          apply Real.log_lt_sub_one_of_pos (by positivity)
          intro hc
          apply hne
          field_simp at hc
          linarith
        have hlogeq : Real.log (u / p s) = -Real.log (p s / u) := by
          rw [← Real.log_inv]
          congr 1
          rw [inv_div]
        rw [hlogeq] at hlog
        have hmul := (mul_lt_mul_left hppos).2 hlog
        have hps : p s * (u / p s - 1) = u - p s := by
          field_simp
        rw [hps] at hmul
        nlinarith
    · intro hall
      have : ∀ s ∈ allStates k, p s * Real.log (p s / u) = 0 := by
        intro s hs
        rw [hall s hs, div_self (ne_of_gt hu), Real.log_one, mul_zero]
      rw [List.map_congr_left this]
      simp [list_sum_map_const]

/-- C8: for every mechanism whose posterior repertoire is a valid probability
distribution (the collaborator contract), `effective_information(mechanism)` —
the base-2 relative entropy between the posterior and the maximum-entropy
prior repertoires — is non-negative, and it is zero exactly when the posterior
and prior repertoires coincide on every joint state of the mechanism. -/
theorem effective_information_nonneg_zero_iff (S : Subsystem_2_0) (mechanism : List ℕ)
    (hp : ∀ s ∈ allStates mechanism.length, 0 ≤ S.posterior_repertoire mechanism s)
    (hsum : ((allStates mechanism.length).map (S.posterior_repertoire mechanism)).sum = 1) :
    0 ≤ S.effective_information mechanism ∧
      (S.effective_information mechanism = 0 ↔
        ∀ s ∈ allStates mechanism.length,
          S.posterior_repertoire mechanism s = S.prior_repertoire mechanism s) := by
  have hkl := kl_uniform mechanism.length (S.posterior_repertoire mechanism) hp hsum
  have hlog2 : (0 : ℝ) < Real.log 2 := Real.log_pos (by norm_num)
  have hei : S.effective_information mechanism =
      ((allStates mechanism.length).map fun s =>
        S.posterior_repertoire mechanism s *
          Real.log (S.posterior_repertoire mechanism s / (1 / 2 ^ mechanism.length))).sum /
        Real.log 2 := rfl
  constructor
  · rw [hei]
    exact div_nonneg hkl.1 (le_of_lt hlog2)
  · rw [hei]
    rw [div_eq_zero_iff]
    constructor
    · intro hz
      rcases hz with hz | hz
      · exact fun s hs => hkl.2.1 hz s hs
      · exact absurd hz (ne_of_gt hlog2)
    · intro hall
      exact Or.inl (hkl.2.2 fun s hs => hall s hs)

/-- A subsystem whose collaborator returns the uniform distribution over every
mechanism, so posterior and prior repertoires coincide. -/
noncomputable def uniformSubsystem : Subsystem_2_0 :=
  ⟨[0], [true], fun m _ => 1 / 2 ^ m.length⟩

theorem effective_information_nonneg_zero_iff_witness :
    0 ≤ uniformSubsystem.effective_information [0] ∧
      (uniformSubsystem.effective_information [0] = 0 ↔
        ∀ s ∈ allStates ([0] : List ℕ).length,
          uniformSubsystem.posterior_repertoire [0] s =
            uniformSubsystem.prior_repertoire [0] s) :=
  effective_information_nonneg_zero_iff uniformSubsystem [0]
    (by
      intro s _
      simp only [uniformSubsystem, Subsystem_2_0.posterior_repertoire]
      positivity)
    (by norm_num [allStates, uniformSubsystem, Subsystem_2_0.posterior_repertoire])

/-! ### The lexicographic pair order used by `Mip_2_0.__lt__` -/

theorem pairLt_irrefl (a : ℝ × ℝ) : ¬ pairLt a a := by
  rintro (h | ⟨_, h⟩) <;> exact lt_irrefl _ h

theorem pairLt_trans {a b c : ℝ × ℝ} (h1 : pairLt a b) (h2 : pairLt b c) : pairLt a c := by
  rcases h1 with h1 | ⟨e1, h1⟩ <;> rcases h2 with h2 | ⟨e2, h2⟩
  · exact Or.inl (lt_trans h1 h2)
  · exact Or.inl (e2 ▸ h1)
  · exact Or.inl (e1 ▸ h2)
  · exact Or.inr ⟨e1.trans e2, lt_trans h1 h2⟩

theorem pairLt_of_not_lt_of_lt {a b c : ℝ × ℝ} (h1 : ¬ pairLt b a) (h2 : pairLt b c) :
    pairLt a c := by
  unfold pairLt at h1
  push_neg at h1
  rcases h2 with h2 | ⟨e2, h2⟩
  · exact Or.inl (lt_of_le_of_lt h1.1 h2)
  · rcases lt_or_eq_of_le h1.1 with hl | he
    · exact Or.inl (e2 ▸ hl)
    · exact Or.inr ⟨he.trans e2, lt_of_le_of_lt (h1.2 he.symm) h2⟩

theorem pairLt_of_lt_of_not_lt {a b c : ℝ × ℝ} (h1 : pairLt a b) (h2 : ¬ pairLt c b) :
    pairLt a c := by
  unfold pairLt at h2
  push_neg at h2
  rcases h1 with h1 | ⟨e1, h1⟩
  · exact Or.inl (lt_of_lt_of_le h1 h2.1)
  · rcases lt_or_eq_of_le h2.1 with hl | he
    · exact Or.inl (e1 ▸ hl)
    · exact Or.inr ⟨e1.trans he, lt_of_lt_of_le h1 (h2.2 he.symm)⟩

theorem mipLt_irrefl (a : Mip_2_0) : ¬ Mip_2_0.lt a a :=
  pairLt_irrefl _

theorem mipLt_trans {a b c : Mip_2_0} (h1 : Mip_2_0.lt a b) (h2 : Mip_2_0.lt b c) :
    Mip_2_0.lt a c :=
  pairLt_trans h1 h2

theorem mipLt_of_not_lt_of_lt {a b c : Mip_2_0} (h1 : ¬ Mip_2_0.lt b a)
    (h2 : Mip_2_0.lt b c) : Mip_2_0.lt a c :=
  pairLt_of_not_lt_of_lt h1 h2

theorem mipLt_of_lt_of_not_lt {a b c : Mip_2_0} (h1 : Mip_2_0.lt a b)
    (h2 : ¬ Mip_2_0.lt c b) : Mip_2_0.lt a c :=
  pairLt_of_lt_of_not_lt h1 h2

/-! ### The behaviour of Python's `min` -/

theorem pythonMin_cons (x y : Mip_2_0) (ys : List Mip_2_0) :
    pythonMin x (y :: ys) = pythonMin (if Mip_2_0.lt y x then y else x) ys := rfl

theorem pythonMin_mem (x : Mip_2_0) (xs : List Mip_2_0) : pythonMin x xs ∈ x :: xs := by
  induction xs generalizing x with
  | nil => exact List.mem_cons_self x []
  | cons y ys ih =>
    rw [pythonMin_cons]
    rcases List.mem_cons.1 (ih (if Mip_2_0.lt y x then y else x)) with h | h
    · rw [h]
      by_cases hc : Mip_2_0.lt y x
      · rw [if_pos hc]; exact List.mem_cons_of_mem x (List.mem_cons_self y ys)
      · rw [if_neg hc]; exact List.mem_cons_self x _
    · exact List.mem_cons_of_mem x (List.mem_cons_of_mem y h)

theorem pythonMin_minimal (x : Mip_2_0) (xs : List Mip_2_0) :
    ∀ z ∈ x :: xs, ¬ Mip_2_0.lt z (pythonMin x xs) := by
  induction xs generalizing x with
  | nil =>
    intro z hz
    rcases List.mem_cons.1 hz with rfl | hz2
    · exact mipLt_irrefl _
    · exact absurd hz2 (List.not_mem_nil z)
  | cons y ys ih =>
    intro z hz
    rw [pythonMin_cons]
    rcases List.mem_cons.1 hz with rfl | hz2
    · by_cases hc : Mip_2_0.lt y z
      · rw [if_pos hc]
        intro hlt
        exact ih y y (List.mem_cons_self y ys) (mipLt_trans hc hlt)
      · rw [if_neg hc]
        exact ih z z (List.mem_cons_self z ys)
    · rcases List.mem_cons.1 hz2 with rfl | hz3
      · by_cases hc : Mip_2_0.lt z x
        · rw [if_pos hc]
          exact ih z z (List.mem_cons_self z ys)
        · rw [if_neg hc]
          intro hlt
          exact ih x x (List.mem_cons_self x ys) (mipLt_of_not_lt_of_lt hc hlt)
      · by_cases hc : Mip_2_0.lt y x
        · rw [if_pos hc]
          exact ih y z (List.mem_cons_of_mem y hz3)
        · rw [if_neg hc]
          exact ih x z (List.mem_cons_of_mem x hz3)

theorem pythonMin_first (x : Mip_2_0) (xs : List Mip_2_0) :
    ∃ l1 l2, x :: xs = l1 ++ pythonMin x xs :: l2 ∧
      ∀ z ∈ l1, Mip_2_0.lt (pythonMin x xs) z := by
  induction xs generalizing x with
  | nil => exact ⟨[], [], rfl, by simp⟩
  | cons y ys ih =>
    rw [pythonMin_cons]
    by_cases hc : Mip_2_0.lt y x
    · rw [if_pos hc]
      rcases ih y with ⟨l1, l2, hdecomp, hl1⟩
      refine ⟨x :: l1, l2, ?_, ?_⟩
      · rw [List.cons_append, ← hdecomp]
      · intro z hz
        rcases List.mem_cons.1 hz with rfl | hz2
        · have hyr : ¬ Mip_2_0.lt y (pythonMin y ys) :=
            pythonMin_minimal y ys y (List.mem_cons_self y ys)
          exact mipLt_of_not_lt_of_lt hyr hc
        · exact hl1 z hz2
    · rw [if_neg hc]
      rcases ih x with ⟨l1, l2, hdecomp, hl1⟩
      cases l1 with
      | nil =>
        rw [List.nil_append] at hdecomp
        have hinj := List.cons.inj hdecomp
        refine ⟨[], y :: ys, ?_, by simp⟩
        rw [List.nil_append, ← hinj.1]
      | cons a l1t =>
        rw [List.cons_append] at hdecomp
        have hinj := List.cons.inj hdecomp
        refine ⟨x :: y :: l1t, l2, ?_, ?_⟩
        · rw [List.cons_append, List.cons_append]
          conv_lhs => rw [hinj.2]
        · intro z hz
          have hrx : Mip_2_0.lt (pythonMin x ys) x := by
            have hla := hl1 a (List.mem_cons_self a l1t)
            rw [← hinj.1] at hla
            exact hla
          rcases List.mem_cons.1 hz with rfl | hz2
          · exact hrx
          · rcases List.mem_cons.1 hz2 with rfl | hz3
            · exact mipLt_of_lt_of_not_lt hrx hc
            · exact hl1 z (List.mem_cons_of_mem a hz3)

/-! ### `find_mip` -/

/-- The candidate Mips `find_mip` minimises over, in enumeration order. -/
noncomputable def Subsystem_2_0.mips (S : Subsystem_2_0) : List Mip_2_0 :=
  (generate_partitions S.node_indices).map fun p => Mip_2_0.mk (S.eip_val p) p S

theorem list_mapM_eq_some {α β : Type} (l : List α) (f : α → Option β) (g : α → β)
    (h : ∀ a ∈ l, f a = some (g a)) : l.mapM f = some (l.map g) := by
  induction l with
  | nil => rfl
  | cons x xs ih =>
    rw [List.mapM_cons, h x (List.mem_cons_self x xs),
      ih fun a ha => h a (List.mem_cons_of_mem x ha)]
    rfl

theorem find_mip_eq (S : Subsystem_2_0) (hs : List.Sorted (· ≤ ·) S.node_indices)
    (_hne : S.node_indices ≠ []) :
    ∃ x xs, S.mips = x :: xs ∧ S.find_mip = some (pythonMin x xs) := by
  have hall : ∀ p ∈ generate_partitions S.node_indices,
      (S.effective_information_partition p).map (fun e => Mip_2_0.mk e p S) =
        some (Mip_2_0.mk (S.eip_val p) p S) := by
    intro p hp
    have hidx := indices_roundtrip_aux S.node_indices hs p hp
    simp [Subsystem_2_0.effective_information_partition, hidx]
  have hmapM : (generate_partitions S.node_indices).mapM
      (fun p => (S.effective_information_partition p).map fun e => Mip_2_0.mk e p S) =
        some S.mips :=
    list_mapM_eq_some _ _ _ hall
  have hnonempty : S.mips ≠ [] := by
    unfold Subsystem_2_0.mips
    rw [generate_partitions_eq]
    intro hc
    rw [List.map_eq_nil_iff, List.map_eq_nil_iff, List.range_eq_nil] at hc
    exact absurd hc (Nat.pos_iff_ne_zero.1 (pow_pos (by norm_num) _))
  cases hm : S.mips with
  | nil => exact absurd hm hnonempty
  | cons x xs =>
    refine ⟨x, xs, rfl, ?_⟩
    unfold Subsystem_2_0.find_mip
    rw [hmapM, hm]

/-! ### Claim C1 -/

/-- C1: `find_mip` returns a minimum over all candidate Mips of the generated
partitions under the Mip order, which is exactly the lexicographic pair order
on (normalized effective information, raw effective information), both
ascending, with normalized EI the raw EI divided by the partition's
normalization; on key pairs with equal normalized EI `0.5` and raw EI `0.3`
versus `0.4`, that order ranks the first strictly less-than the second. -/
theorem find_mip_is_minimum (S : Subsystem_2_0) (hs : List.Sorted (· ≤ ·) S.node_indices)
    (hne : S.node_indices ≠ []) :
    (∀ m1 m2 : Mip_2_0, Mip_2_0.lt m1 m2 ↔
        pairLt (m1.ei / (m1.partition.normalization : ℝ), m1.ei)
          (m2.ei / (m2.partition.normalization : ℝ), m2.ei)) ∧
      pairLt ((0.5 : ℝ), 0.3) ((0.5 : ℝ), 0.4) ∧
      ∃ m, S.find_mip = some m ∧ m ∈ S.mips ∧ ∀ m2 ∈ S.mips, ¬ Mip_2_0.lt m2 m := by
  refine ⟨fun m1 m2 => Iff.rfl, Or.inr ⟨rfl, by norm_num⟩, ?_⟩
  rcases find_mip_eq S hs hne with ⟨x, xs, hm, hfm⟩
  refine ⟨pythonMin x xs, hfm, ?_, ?_⟩
  · rw [hm]; exact pythonMin_mem x xs
  · rw [hm]; exact pythonMin_minimal x xs

theorem find_mip_is_minimum_witness :
    pairLt ((0.5 : ℝ), 0.3) ((0.5 : ℝ), 0.4) ∧
      ∃ m, demoSubsystem.find_mip = some m ∧ m ∈ demoSubsystem.mips ∧
        ∀ m2 ∈ demoSubsystem.mips, ¬ Mip_2_0.lt m2 m :=
  ⟨(find_mip_is_minimum demoSubsystem (by decide) (by decide)).2.1,
    (find_mip_is_minimum demoSubsystem (by decide) (by decide)).2.2⟩

/-! ### Claim C10 -/

/-- C10: `find_mip` deterministically returns the first minimal candidate in
the enumeration order of `generate_partitions`: no candidate anywhere is
strictly smaller, and every candidate strictly before the returned one is
strictly greater — so when several partitions tie exactly on both comparison
keys, the first of them in enumeration order is returned (Python's `min`
keeps the first minimal element under strict less-than). -/
theorem find_mip_first_minimal (S : Subsystem_2_0) (hs : List.Sorted (· ≤ ·) S.node_indices)
    (hne : S.node_indices ≠ []) :
    ∃ m l1 l2, S.find_mip = some m ∧ S.mips = l1 ++ m :: l2 ∧
      (∀ m2 ∈ S.mips, ¬ Mip_2_0.lt m2 m) ∧ ∀ m2 ∈ l1, Mip_2_0.lt m m2 := by
  rcases find_mip_eq S hs hne with ⟨x, xs, hm, hfm⟩
  rcases pythonMin_first x xs with ⟨l1, l2, hdecomp, hl1⟩
  refine ⟨pythonMin x xs, l1, l2, hfm, ?_, ?_, hl1⟩
  · rw [hm, hdecomp]
  · rw [hm]; exact pythonMin_minimal x xs

theorem find_mip_first_minimal_witness :
    ∃ m l1 l2, demoSubsystem.find_mip = some m ∧ demoSubsystem.mips = l1 ++ m :: l2 ∧
      (∀ m2 ∈ demoSubsystem.mips, ¬ Mip_2_0.lt m2 m) ∧ ∀ m2 ∈ l1, Mip_2_0.lt m m2 :=
  find_mip_first_minimal demoSubsystem (by decide) (by decide)

end PyPhi
